import Mathlib

/-!
Verification of `propositions/operators.py`: syntactic conversion of
propositional formulas to restricted operator bases.

The repository provides only `operators.py`; the collaborating `Formula`
class (`propositions/syntax.py`) and the truth-value evaluator
(`propositions/semantics.py`) are external.  The formula grammar and the
semantics are therefore modelled from the specification; the five
converters are translated directly from the source.  The source's
defensive `raise ValueError('Unknown operator: ...')` branches (and the
attribute errors the nested helpers of `to_nand` / `to_implies_false`
would raise on a constant node) are modelled by `Option.none`.
-/

/-- Modelled from the spec: the `Formula` tree of `propositions/syntax.py`
(spec §3).  A node is a variable leaf (holding a name), a constant leaf
(root `"T"` or `"F"`), a unary application (the only unary operator is
`~`), or a binary application holding its root operator tag and two
operands.  Root tags are kept as strings so that the converters' string
dispatch (and their unknown-operator error branches) can be rendered
faithfully. -/
inductive Formula where
  | var (name : String)
  | const (name : String)
  | unary (first : Formula)
  | binary (root : String) (first second : Formula)
deriving DecidableEq, Repr

/-- The binary operator tags of the declared grammar (spec §3). -/
def knownBinary (r : String) : Bool :=
  r == "&" || r == "|" || r == "->" || r == "+" || r == "<->" || r == "-&" || r == "-|"

/-- Modelled from the spec: well-formedness of a `Formula` node, the
invariant `propositions/syntax.py`'s constructor enforces (spec §3):
constants are exactly `T` and `F`, and a binary node's root is one of
`&`, `|`, `->`, `+`, `<->`, `-&`, `-|`. -/
def wf : Formula → Bool
  | .var _ => true
  | .const n => n == "T" || n == "F"
  | .unary f => wf f
  | .binary r a b => knownBinary r && wf a && wf b

/-- Modelled from the spec: the truth-value evaluator of
`propositions/semantics.py` (spec §8), under an assignment of truth
values to variable names.  Nodes outside the declared grammar (which a
well-formed formula never contains) evaluate to `false`. -/
def evaluate : Formula → (String → Bool) → Bool
  | .var n, v => v n
  | .const n, _ => n == "T"
  | .unary f, v => !(evaluate f v)
  | .binary r a b, v =>
    let x := evaluate a v
    let y := evaluate b v
    match r with
    | "&" => x && y
    | "|" => x || y
    | "->" => !x || y
    | "+" => x != y
    | "<->" => x == y
    | "-&" => !(x && y)
    | "-|" => !(x || y)
    | _ => false

/-- The variable names occurring in a formula (with multiplicity; only
membership is ever used). -/
def vars : Formula → List String
  | .var n => [n]
  | .const _ => []
  | .unary f => vars f
  | .binary _ a b => vars a ++ vars b

/-- Whether a constant node occurs anywhere in the formula. -/
def hasConst : Formula → Bool
  | .var _ => false
  | .const _ => true
  | .unary f => hasConst f
  | .binary _ a b => hasConst a || hasConst b

/-- The operator/constant tags occurring in a formula: constant names,
`~` for each unary node, and each binary node's root.  Variable leaves
contribute no tag. -/
def tags : Formula → List String
  | .var _ => []
  | .const n => [n]
  | .unary f => "~" :: tags f
  | .binary r a b => r :: (tags a ++ tags b)

/-- Every operator/constant tag of the formula lies in `allowed`. -/
def basisOnly (allowed : List String) (f : Formula) : Bool :=
  (tags f).all fun t => allowed.contains t

/-- `to_not_and_or` from `operators.py` (lines 13-54): conversion to the
basis `{~, &, |}`.  The final `raise ValueError` is `none`. -/
def to_not_and_or : Formula → Option Formula
  | .var n => some (.var n)
  | .const n =>
    let p := Formula.var "p"
    if n == "T" then some (.binary "|" p (.unary p))
    else some (.binary "&" p (.unary p))
  | .unary f => (to_not_and_or f).map Formula.unary
  | .binary root a b =>
    match to_not_and_or a, to_not_and_or b with
    | some first, some second =>
      match root with
      | "&" => some (.binary "&" first second)
      | "|" => some (.binary "|" first second)
      | "->" => some (.binary "|" (.unary first) second)
      | "+" => some (.binary "|" (.binary "&" first (.unary second))
                                 (.binary "&" (.unary first) second))
      | "<->" => some (.binary "|" (.binary "&" first second)
                                   (.binary "&" (.unary first) (.unary second)))
      | "-&" => some (.unary (.binary "&" first second))
      | "-|" => some (.unary (.binary "|" first second))
      | _ => none
    | _, _ => none

/-- `to_not_and` from `operators.py` (lines 56-96): conversion to the
basis `{~, &}`.  The source's `'<->'` branch re-runs the converter on
`Formula('+', formula.first, formula.second)` and negates the result;
that self-call is not structurally decreasing, so here its one-step
unfolding (the `'+'` branch applied to the same converted operands) is
inlined, and the theorem `to_not_and_iff_via_xor` below proves the
definition satisfies the source's literal equation. -/
def to_not_and : Formula → Option Formula
  | .var n => some (.var n)
  | .const n =>
    let p := Formula.var "p"
    let contradiction := Formula.binary "&" p (.unary p)
    if n == "F" then some contradiction
    else some (.unary contradiction)
  | .unary f => (to_not_and f).map Formula.unary
  | .binary root a b =>
    match to_not_and a, to_not_and b with
    | some first, some second =>
      match root with
      | "&" => some (.binary "&" first second)
      | "|" => some (.unary (.binary "&" (.unary first) (.unary second)))
      | "->" => some (.unary (.binary "&" first (.unary second)))
      | "+" => some (.unary (.binary "&"
                 (.unary (.binary "&" first (.unary second)))
                 (.unary (.binary "&" (.unary first) second))))
      | "<->" => some (.unary (.unary (.binary "&"
                 (.unary (.binary "&" first (.unary second)))
                 (.unary (.binary "&" (.unary first) second)))))
      | "-&" => some (.unary (.binary "&" first second))
      | "-|" => some (.binary "&" (.unary first) (.unary second))
      | _ => none
    | _, _ => none

/-- The nested `convert` helper of `to_nand` (`operators.py` lines
110-119).  It dispatches only on variable/unary/binary and treats every
binary node as a conjunction; on a constant node the Python code would
fail with an attribute error (constants have no operands), modelled as
`none`. -/
def to_nand.convert : Formula → Option Formula
  | .var n => some (.var n)
  | .const _ => none
  | .unary f =>
    (to_nand.convert f).map fun inner => .binary "-&" inner inner
  | .binary _ a b =>
    match to_nand.convert a, to_nand.convert b with
    | some first, some second =>
      let nand := Formula.binary "-&" first second
      some (.binary "-&" nand nand)
    | _, _ => none

/-- `to_nand` from `operators.py` (lines 98-120): conversion to the basis
`{-&}`, as `to_not_and` followed by the `convert` post-pass. -/
def to_nand (formula : Formula) : Option Formula :=
  (to_not_and formula).bind to_nand.convert

/-- The `imp` helper of `to_implies_not` (`operators.py` line 133). -/
def imp (a b : Formula) : Formula := .binary "->" a b

/-- The `neg` helper of `to_implies_not` (`operators.py` line 135). -/
def neg (a : Formula) : Formula := .unary a

/-- `to_implies_not` from `operators.py` (lines 122-163): conversion to
the basis `{->, ~}`.  The final `raise ValueError` is `none`. -/
def to_implies_not : Formula → Option Formula
  | .var n => some (.var n)
  | .const n =>
    let p := Formula.var "p"
    let t := imp p p
    if n == "T" then some t
    else some (neg t)
  | .unary f => (to_implies_not f).map neg
  | .binary root a b =>
    match to_implies_not a, to_implies_not b with
    | some first, some second =>
      match root with
      | "->" => some (imp first second)
      | "|" => some (imp (neg first) second)
      | "&" => some (neg (imp first (neg second)))
      | "+" => some (imp (imp first second) (neg (imp second first)))
      | "<->" => some (neg (imp (imp first second) (neg (imp second first))))
      | "-&" => some (imp first (neg second))
      | "-|" => some (neg (imp (neg first) second))
      | _ => none
    | _, _ => none

/-- The nested `eliminate` helper of `to_implies_false` (`operators.py`
lines 177-182).  A unary node becomes `operand -> F`; every binary node
is rebuilt with root `->` (the source ignores the root); on a constant
node the Python code would fail with an attribute error, modelled as
`none`. -/
def to_implies_false.eliminate : Formula → Option Formula
  | .var n => some (.var n)
  | .const _ => none
  | .unary f =>
    (to_implies_false.eliminate f).map fun g => .binary "->" g (.const "F")
  | .binary _ a b =>
    match to_implies_false.eliminate a, to_implies_false.eliminate b with
    | some first, some second => some (.binary "->" first second)
    | _, _ => none

/-- `to_implies_false` from `operators.py` (lines 165-183): conversion to
the basis `{->, F}`, as `to_implies_not` followed by the `eliminate`
post-pass. -/
def to_implies_false (formula : Formula) : Option Formula :=
  (to_implies_not formula).bind to_implies_false.eliminate

/-- Structural membership in the basis `{~, &, |}`: variable leaves,
unary nodes, binary nodes with root `&` or `|`; no constants. -/
def inBasisNAO : Formula → Bool
  | .var _ => true
  | .const _ => false
  | .unary f => inBasisNAO f
  | .binary r a b => (r == "&" || r == "|") && inBasisNAO a && inBasisNAO b

/-- Structural membership in the basis `{~, &}`. -/
def inBasisNA : Formula → Bool
  | .var _ => true
  | .const _ => false
  | .unary f => inBasisNA f
  | .binary r a b => r == "&" && inBasisNA a && inBasisNA b

/-- Structural membership in the basis `{-&}`: variable leaves and
`-&` nodes only. -/
def inBasisNand : Formula → Bool
  | .var _ => true
  | .const _ => false
  | .unary _ => false
  | .binary r a b => r == "-&" && inBasisNand a && inBasisNand b

/-- Structural membership in the basis `{->, ~}`. -/
def inBasisIN : Formula → Bool
  | .var _ => true
  | .const _ => false
  | .unary f => inBasisIN f
  | .binary r a b => r == "->" && inBasisIN a && inBasisIN b

/-- Structural membership in the basis `{->, F}`: variable leaves, the
constant `F`, and `->` nodes; no unary nodes. -/
def inBasisIF : Formula → Bool
  | .var _ => true
  | .const n => n == "F"
  | .unary _ => false
  | .binary r a b => r == "->" && inBasisIF a && inBasisIF b

/-- Structural membership in the constant-free fragment of the basis
`{->, F}`: variable leaves and `->` nodes only. -/
def inBasisImpOnly : Formula → Bool
  | .var _ => true
  | .const _ => false
  | .unary _ => false
  | .binary r a b => r == "->" && inBasisImpOnly a && inBasisImpOnly b

@[simp] theorem evaluate_var (n : String) (v : String → Bool) : evaluate (.var n) v = v n := rfl
@[simp] theorem evaluate_const (n : String) (v : String → Bool) : evaluate (.const n) v = (n == "T") := rfl
@[simp] theorem evaluate_unary (f : Formula) (v : String → Bool) : evaluate (.unary f) v = !(evaluate f v) := rfl
@[simp] theorem evaluate_and (a b : Formula) (v : String → Bool) : evaluate (.binary "&" a b) v = (evaluate a v && evaluate b v) := rfl
@[simp] theorem evaluate_or (a b : Formula) (v : String → Bool) : evaluate (.binary "|" a b) v = (evaluate a v || evaluate b v) := rfl
@[simp] theorem evaluate_imp (a b : Formula) (v : String → Bool) : evaluate (.binary "->" a b) v = (!(evaluate a v) || evaluate b v) := rfl
@[simp] theorem evaluate_xor (a b : Formula) (v : String → Bool) : evaluate (.binary "+" a b) v = (evaluate a v != evaluate b v) := rfl
@[simp] theorem evaluate_iff (a b : Formula) (v : String → Bool) : evaluate (.binary "<->" a b) v = (evaluate a v == evaluate b v) := rfl
@[simp] theorem evaluate_nand (a b : Formula) (v : String → Bool) : evaluate (.binary "-&" a b) v = !(evaluate a v && evaluate b v) := rfl
@[simp] theorem evaluate_nor (a b : Formula) (v : String → Bool) : evaluate (.binary "-|" a b) v = !(evaluate a v || evaluate b v) := rfl

theorem knownBinary_cases {r : String} (h : knownBinary r = true) :
    r = "&" ∨ r = "|" ∨ r = "->" ∨ r = "+" ∨ r = "<->" ∨ r = "-&" ∨ r = "-|" := by
  simp only [knownBinary, Bool.or_eq_true, beq_iff_eq] at h
  tauto

theorem or_map_or {A B C D E : Prop} (ha : A → C ∨ E) (hb : B → D ∨ E)
    (h : A ∨ B) : (C ∨ D) ∨ E := by tauto

theorem or_map {A B C D : Prop} (ha : A → C) (hb : B → D) (h : A ∨ B) : C ∨ D := by
  tauto

theorem nao_main (f : Formula) (h : wf f = true) :
    ∃ g, to_not_and_or f = some g ∧ inBasisNAO g = true ∧
      (∀ v, evaluate g v = evaluate f v) ∧
      (∀ x, x ∈ vars g → x ∈ vars f ∨ x = "p") ∧
      (hasConst f = false → ∀ x, x ∈ vars g → x ∈ vars f) := by
  induction f with
  | var n =>
    exact ⟨.var n, rfl, rfl, fun v => rfl, fun x hx => .inl hx, fun _ x hx => hx⟩
  | const n =>
    simp only [wf, Bool.or_eq_true, beq_iff_eq] at h
    rcases h with rfl | rfl
    · refine ⟨.binary "|" (.var "p") (.unary (.var "p")), rfl, rfl,
        fun v => by simp, fun x hx => .inr (by simpa [vars] using hx),
        fun hc => by simp [hasConst] at hc⟩
    · refine ⟨.binary "&" (.var "p") (.unary (.var "p")), rfl, rfl,
        fun v => by simp, fun x hx => .inr (by simpa [vars] using hx),
        fun hc => by simp [hasConst] at hc⟩
  | unary f ih =>
    obtain ⟨g, hg, hb, hs, hv, hvc⟩ := ih (by simpa [wf] using h)
    exact ⟨.unary g, by simp [to_not_and_or, hg], by simpa [inBasisNAO] using hb,
      fun v => by simp [hs], hv, fun hc => hvc (by simpa [hasConst] using hc)⟩
  | binary root a b iha ihb =>
    simp only [wf, Bool.and_eq_true] at h
    obtain ⟨⟨h1, h2⟩, h3⟩ := h
    obtain ⟨a', ha, hba, hsa, hva, hvca⟩ := iha h2
    obtain ⟨b', hb, hbb, hsb, hvb, hvcb⟩ := ihb h3
    have hnc : hasConst (Formula.binary root a b) = false →
        (hasConst a = false ∧ hasConst b = false) := by
      simp [hasConst]
    rcases knownBinary_cases h1 with rfl | rfl | rfl | rfl | rfl | rfl | rfl
    · refine ⟨.binary "&" a' b', by simp [to_not_and_or, ha, hb],
        by simp [inBasisNAO, hba, hbb], fun v => by simp [hsa, hsb],
        fun x hx => ?_, fun hc x hx => ?_⟩
      · simp only [vars, List.mem_append] at hx ⊢
        exact or_map_or (hva x) (hvb x) hx
      · obtain ⟨hca, hcb⟩ := hnc hc
        simp only [vars, List.mem_append] at hx ⊢
        exact or_map (hvca hca x) (hvcb hcb x) hx
    · refine ⟨.binary "|" a' b', by simp [to_not_and_or, ha, hb],
        by simp [inBasisNAO, hba, hbb], fun v => by simp [hsa, hsb],
        fun x hx => ?_, fun hc x hx => ?_⟩
      · simp only [vars, List.mem_append] at hx ⊢
        exact or_map_or (hva x) (hvb x) hx
      · obtain ⟨hca, hcb⟩ := hnc hc
        simp only [vars, List.mem_append] at hx ⊢
        exact or_map (hvca hca x) (hvcb hcb x) hx
    · refine ⟨.binary "|" (.unary a') b', by simp [to_not_and_or, ha, hb],
        by simp [inBasisNAO, hba, hbb], fun v => by simp [hsa, hsb],
        fun x hx => ?_, fun hc x hx => ?_⟩
      · simp only [vars, List.mem_append] at hx ⊢
        exact or_map_or (hva x) (hvb x) hx
      · obtain ⟨hca, hcb⟩ := hnc hc
        simp only [vars, List.mem_append] at hx ⊢
        exact or_map (hvca hca x) (hvcb hcb x) hx
    · refine ⟨.binary "|" (.binary "&" a' (.unary b')) (.binary "&" (.unary a') b'),
        by simp [to_not_and_or, ha, hb],
        by simp [inBasisNAO, hba, hbb],
        fun v => ?_, fun x hx => ?_, fun hc x hx => ?_⟩
      · simp only [evaluate_or, evaluate_and, evaluate_unary, evaluate_xor, hsa, hsb]
        cases evaluate a v <;> cases evaluate b v <;> rfl
      · simp only [vars, List.mem_append] at hx ⊢
        rcases hx with hx | hx <;> exact or_map_or (hva x) (hvb x) hx
      · obtain ⟨hca, hcb⟩ := hnc hc
        simp only [vars, List.mem_append] at hx ⊢
        rcases hx with hx | hx <;> exact or_map (hvca hca x) (hvcb hcb x) hx
    · refine ⟨.binary "|" (.binary "&" a' b') (.binary "&" (.unary a') (.unary b')),
        by simp [to_not_and_or, ha, hb],
        by simp [inBasisNAO, hba, hbb],
        fun v => ?_, fun x hx => ?_, fun hc x hx => ?_⟩
      · simp only [evaluate_or, evaluate_and, evaluate_unary, evaluate_iff, hsa, hsb]
        cases evaluate a v <;> cases evaluate b v <;> rfl
      · simp only [vars, List.mem_append] at hx ⊢
        rcases hx with hx | hx <;> exact or_map_or (hva x) (hvb x) hx
      · obtain ⟨hca, hcb⟩ := hnc hc
        simp only [vars, List.mem_append] at hx ⊢
        rcases hx with hx | hx <;> exact or_map (hvca hca x) (hvcb hcb x) hx
    · refine ⟨.unary (.binary "&" a' b'), by simp [to_not_and_or, ha, hb],
        by simp [inBasisNAO, hba, hbb], fun v => by simp [hsa, hsb],
        fun x hx => ?_, fun hc x hx => ?_⟩
      · simp only [vars, List.mem_append] at hx ⊢
        exact or_map_or (hva x) (hvb x) hx
      · obtain ⟨hca, hcb⟩ := hnc hc
        simp only [vars, List.mem_append] at hx ⊢
        exact or_map (hvca hca x) (hvcb hcb x) hx
    · refine ⟨.unary (.binary "|" a' b'), by simp [to_not_and_or, ha, hb],
        by simp [inBasisNAO, hba, hbb], fun v => by simp [hsa, hsb],
        fun x hx => ?_, fun hc x hx => ?_⟩
      · simp only [vars, List.mem_append] at hx ⊢
        exact or_map_or (hva x) (hvb x) hx
      · obtain ⟨hca, hcb⟩ := hnc hc
        simp only [vars, List.mem_append] at hx ⊢
        exact or_map (hvca hca x) (hvcb hcb x) hx

theorem na_main (f : Formula) (h : wf f = true) :
    ∃ g, to_not_and f = some g ∧ inBasisNA g = true ∧
      (∀ v, evaluate g v = evaluate f v) ∧
      (∀ x, x ∈ vars g → x ∈ vars f ∨ x = "p") ∧
      (hasConst f = false → ∀ x, x ∈ vars g → x ∈ vars f) := by
  induction f with
  | var n =>
    exact ⟨.var n, rfl, rfl, fun v => rfl, fun x hx => .inl hx, fun _ x hx => hx⟩
  | const n =>
    simp only [wf, Bool.or_eq_true, beq_iff_eq] at h
    rcases h with rfl | rfl
    · refine ⟨.unary (.binary "&" (.var "p") (.unary (.var "p"))), rfl, rfl,
        fun v => by simp, fun x hx => .inr (by simpa [vars] using hx),
        fun hc => by simp [hasConst] at hc⟩
    · refine ⟨.binary "&" (.var "p") (.unary (.var "p")), rfl, rfl,
        fun v => by simp, fun x hx => .inr (by simpa [vars] using hx),
        fun hc => by simp [hasConst] at hc⟩
  | unary f ih =>
    obtain ⟨g, hg, hb, hs, hv, hvc⟩ := ih (by simpa [wf] using h)
    exact ⟨.unary g, by simp [to_not_and, hg], by simpa [inBasisNA] using hb,
      fun v => by simp [hs], hv, fun hc => hvc (by simpa [hasConst] using hc)⟩
  | binary root a b iha ihb =>
    simp only [wf, Bool.and_eq_true] at h
    obtain ⟨⟨h1, h2⟩, h3⟩ := h
    obtain ⟨a', ha, hba, hsa, hva, hvca⟩ := iha h2
    obtain ⟨b', hb, hbb, hsb, hvb, hvcb⟩ := ihb h3
    have hnc : hasConst (Formula.binary root a b) = false →
        (hasConst a = false ∧ hasConst b = false) := by
      simp [hasConst]
    rcases knownBinary_cases h1 with rfl | rfl | rfl | rfl | rfl | rfl | rfl
    · refine ⟨.binary "&" a' b', by simp [to_not_and, ha, hb],
        by simp [inBasisNA, hba, hbb], fun v => by simp [hsa, hsb],
        fun x hx => ?_, fun hc x hx => ?_⟩
      · simp only [vars, List.mem_append] at hx ⊢
        exact or_map_or (hva x) (hvb x) hx
      · obtain ⟨hca, hcb⟩ := hnc hc
        simp only [vars, List.mem_append] at hx ⊢
        exact or_map (hvca hca x) (hvcb hcb x) hx
    · refine ⟨.unary (.binary "&" (.unary a') (.unary b')), by simp [to_not_and, ha, hb],
        by simp [inBasisNA, hba, hbb], fun v => ?_,
        fun x hx => ?_, fun hc x hx => ?_⟩
      · simp only [evaluate_unary, evaluate_and, evaluate_or, hsa, hsb]
        cases evaluate a v <;> cases evaluate b v <;> rfl
      · simp only [vars, List.mem_append] at hx ⊢
        exact or_map_or (hva x) (hvb x) hx
      · obtain ⟨hca, hcb⟩ := hnc hc
        simp only [vars, List.mem_append] at hx ⊢
        exact or_map (hvca hca x) (hvcb hcb x) hx
    · refine ⟨.unary (.binary "&" a' (.unary b')), by simp [to_not_and, ha, hb],
        by simp [inBasisNA, hba, hbb], fun v => ?_,
        fun x hx => ?_, fun hc x hx => ?_⟩
      · simp only [evaluate_unary, evaluate_and, evaluate_imp, hsa, hsb]
        cases evaluate a v <;> cases evaluate b v <;> rfl
      · simp only [vars, List.mem_append] at hx ⊢
        exact or_map_or (hva x) (hvb x) hx
      · obtain ⟨hca, hcb⟩ := hnc hc
        simp only [vars, List.mem_append] at hx ⊢
        exact or_map (hvca hca x) (hvcb hcb x) hx
    · refine ⟨.unary (.binary "&"
          (.unary (.binary "&" a' (.unary b')))
          (.unary (.binary "&" (.unary a') b'))),
        by simp [to_not_and, ha, hb],
        by simp [inBasisNA, hba, hbb], fun v => ?_,
        fun x hx => ?_, fun hc x hx => ?_⟩
      · simp only [evaluate_unary, evaluate_and, evaluate_xor, hsa, hsb]
        cases evaluate a v <;> cases evaluate b v <;> rfl
      · simp only [vars, List.mem_append] at hx ⊢
        rcases hx with hx | hx <;> exact or_map_or (hva x) (hvb x) hx
      · obtain ⟨hca, hcb⟩ := hnc hc
        simp only [vars, List.mem_append] at hx ⊢
        rcases hx with hx | hx <;> exact or_map (hvca hca x) (hvcb hcb x) hx
    · refine ⟨.unary (.unary (.binary "&"
          (.unary (.binary "&" a' (.unary b')))
          (.unary (.binary "&" (.unary a') b')))),
        by simp [to_not_and, ha, hb],
        by simp [inBasisNA, hba, hbb], fun v => ?_,
        fun x hx => ?_, fun hc x hx => ?_⟩
      · simp only [evaluate_unary, evaluate_and, evaluate_iff, hsa, hsb]
        cases evaluate a v <;> cases evaluate b v <;> rfl
      · simp only [vars, List.mem_append] at hx ⊢
        rcases hx with hx | hx <;> exact or_map_or (hva x) (hvb x) hx
      · obtain ⟨hca, hcb⟩ := hnc hc
        simp only [vars, List.mem_append] at hx ⊢
        rcases hx with hx | hx <;> exact or_map (hvca hca x) (hvcb hcb x) hx
    · refine ⟨.unary (.binary "&" a' b'), by simp [to_not_and, ha, hb],
        by simp [inBasisNA, hba, hbb], fun v => by simp [hsa, hsb],
        fun x hx => ?_, fun hc x hx => ?_⟩
      · simp only [vars, List.mem_append] at hx ⊢
        exact or_map_or (hva x) (hvb x) hx
      · obtain ⟨hca, hcb⟩ := hnc hc
        simp only [vars, List.mem_append] at hx ⊢
        exact or_map (hvca hca x) (hvcb hcb x) hx
    · refine ⟨.binary "&" (.unary a') (.unary b'), by simp [to_not_and, ha, hb],
        by simp [inBasisNA, hba, hbb], fun v => ?_,
        fun x hx => ?_, fun hc x hx => ?_⟩
      · simp only [evaluate_and, evaluate_unary, evaluate_nor, hsa, hsb]
        cases evaluate a v <;> cases evaluate b v <;> rfl
      · simp only [vars, List.mem_append] at hx ⊢
        exact or_map_or (hva x) (hvb x) hx
      · obtain ⟨hca, hcb⟩ := hnc hc
        simp only [vars, List.mem_append] at hx ⊢
        exact or_map (hvca hca x) (hvcb hcb x) hx

theorem in_main (f : Formula) (h : wf f = true) :
    ∃ g, to_implies_not f = some g ∧ inBasisIN g = true ∧
      (∀ v, evaluate g v = evaluate f v) ∧
      (∀ x, x ∈ vars g → x ∈ vars f ∨ x = "p") ∧
      (hasConst f = false → ∀ x, x ∈ vars g → x ∈ vars f) := by
  induction f with
  | var n =>
    exact ⟨.var n, rfl, rfl, fun v => rfl, fun x hx => .inl hx, fun _ x hx => hx⟩
  | const n =>
    simp only [wf, Bool.or_eq_true, beq_iff_eq] at h
    rcases h with rfl | rfl
    · refine ⟨.binary "->" (.var "p") (.var "p"), rfl, rfl,
        fun v => by simp, fun x hx => .inr (by simpa [vars] using hx),
        fun hc => by simp [hasConst] at hc⟩
    · refine ⟨.unary (.binary "->" (.var "p") (.var "p")), rfl, rfl,
        fun v => by simp, fun x hx => .inr (by simpa [vars] using hx),
        fun hc => by simp [hasConst] at hc⟩
  | unary f ih =>
    obtain ⟨g, hg, hb, hs, hv, hvc⟩ := ih (by simpa [wf] using h)
    exact ⟨.unary g, by simp [to_implies_not, neg, hg], by simpa [inBasisIN] using hb,
      fun v => by simp [hs], hv, fun hc => hvc (by simpa [hasConst] using hc)⟩
  | binary root a b iha ihb =>
    simp only [wf, Bool.and_eq_true] at h
    obtain ⟨⟨h1, h2⟩, h3⟩ := h
    obtain ⟨a', ha, hba, hsa, hva, hvca⟩ := iha h2
    obtain ⟨b', hb, hbb, hsb, hvb, hvcb⟩ := ihb h3
    have hnc : hasConst (Formula.binary root a b) = false →
        (hasConst a = false ∧ hasConst b = false) := by
      simp [hasConst]
    rcases knownBinary_cases h1 with rfl | rfl | rfl | rfl | rfl | rfl | rfl
    · refine ⟨.unary (.binary "->" a' (.unary b')),
        by simp [to_implies_not, imp, neg, ha, hb],
        by simp [inBasisIN, hba, hbb], fun v => ?_,
        fun x hx => ?_, fun hc x hx => ?_⟩
      · simp only [evaluate_imp, evaluate_unary, evaluate_and, hsa, hsb]
        cases evaluate a v <;> cases evaluate b v <;> rfl
      · simp only [vars, List.mem_append] at hx ⊢
        exact or_map_or (hva x) (hvb x) hx
      · obtain ⟨hca, hcb⟩ := hnc hc
        simp only [vars, List.mem_append] at hx ⊢
        exact or_map (hvca hca x) (hvcb hcb x) hx
    · refine ⟨.binary "->" (.unary a') b',
        by simp [to_implies_not, imp, neg, ha, hb],
        by simp [inBasisIN, hba, hbb], fun v => ?_,
        fun x hx => ?_, fun hc x hx => ?_⟩
      · simp only [evaluate_imp, evaluate_unary, evaluate_or, hsa, hsb]
        cases evaluate a v <;> cases evaluate b v <;> rfl
      · simp only [vars, List.mem_append] at hx ⊢
        exact or_map_or (hva x) (hvb x) hx
      · obtain ⟨hca, hcb⟩ := hnc hc
        simp only [vars, List.mem_append] at hx ⊢
        exact or_map (hvca hca x) (hvcb hcb x) hx
    · refine ⟨.binary "->" a' b',
        by simp [to_implies_not, imp, neg, ha, hb],
        by simp [inBasisIN, hba, hbb], fun v => by simp [hsa, hsb],
        fun x hx => ?_, fun hc x hx => ?_⟩
      · simp only [vars, List.mem_append] at hx ⊢
        exact or_map_or (hva x) (hvb x) hx
      · obtain ⟨hca, hcb⟩ := hnc hc
        simp only [vars, List.mem_append] at hx ⊢
        exact or_map (hvca hca x) (hvcb hcb x) hx
    · refine ⟨.binary "->" (.binary "->" a' b') (.unary (.binary "->" b' a')),
        by simp [to_implies_not, imp, neg, ha, hb],
        by simp [inBasisIN, hba, hbb], fun v => ?_,
        fun x hx => ?_, fun hc x hx => ?_⟩
      · simp only [evaluate_imp, evaluate_unary, evaluate_xor, hsa, hsb]
        cases evaluate a v <;> cases evaluate b v <;> rfl
      · simp only [vars, List.mem_append] at hx ⊢
        rcases hx with hx | hx
        · exact or_map_or (hva x) (hvb x) hx
        · exact (or_map_or (hvb x) (hva x) hx).imp Or.symm id
      · obtain ⟨hca, hcb⟩ := hnc hc
        simp only [vars, List.mem_append] at hx ⊢
        rcases hx with hx | hx
        · exact or_map (hvca hca x) (hvcb hcb x) hx
        · exact (or_map (hvcb hcb x) (hvca hca x) hx).symm
    · refine ⟨.unary (.binary "->" (.binary "->" a' b') (.unary (.binary "->" b' a'))),
        by simp [to_implies_not, imp, neg, ha, hb],
        by simp [inBasisIN, hba, hbb], fun v => ?_,
        fun x hx => ?_, fun hc x hx => ?_⟩
      · simp only [evaluate_imp, evaluate_unary, evaluate_iff, hsa, hsb]
        cases evaluate a v <;> cases evaluate b v <;> rfl
      · simp only [vars, List.mem_append] at hx ⊢
        rcases hx with hx | hx
        · exact or_map_or (hva x) (hvb x) hx
        · exact (or_map_or (hvb x) (hva x) hx).imp Or.symm id
      · obtain ⟨hca, hcb⟩ := hnc hc
        simp only [vars, List.mem_append] at hx ⊢
        rcases hx with hx | hx
        · exact or_map (hvca hca x) (hvcb hcb x) hx
        · exact (or_map (hvcb hcb x) (hvca hca x) hx).symm
    · refine ⟨.binary "->" a' (.unary b'),
        by simp [to_implies_not, imp, neg, ha, hb],
        by simp [inBasisIN, hba, hbb], fun v => ?_,
        fun x hx => ?_, fun hc x hx => ?_⟩
      · simp only [evaluate_imp, evaluate_unary, evaluate_nand, hsa, hsb]
        cases evaluate a v <;> cases evaluate b v <;> rfl
      · simp only [vars, List.mem_append] at hx ⊢
        exact or_map_or (hva x) (hvb x) hx
      · obtain ⟨hca, hcb⟩ := hnc hc
        simp only [vars, List.mem_append] at hx ⊢
        exact or_map (hvca hca x) (hvcb hcb x) hx
    · refine ⟨.unary (.binary "->" (.unary a') b'),
        by simp [to_implies_not, imp, neg, ha, hb],
        by simp [inBasisIN, hba, hbb], fun v => ?_,
        fun x hx => ?_, fun hc x hx => ?_⟩
      · simp only [evaluate_imp, evaluate_unary, evaluate_nor, hsa, hsb]
        cases evaluate a v <;> cases evaluate b v <;> rfl
      · simp only [vars, List.mem_append] at hx ⊢
        exact or_map_or (hva x) (hvb x) hx
      · obtain ⟨hca, hcb⟩ := hnc hc
        simp only [vars, List.mem_append] at hx ⊢
        exact or_map (hvca hca x) (hvcb hcb x) hx

theorem conv_main (f : Formula) (h : inBasisNA f = true) :
    ∃ g, to_nand.convert f = some g ∧ inBasisNand g = true ∧
      (∀ v, evaluate g v = evaluate f v) ∧
      (∀ x, x ∈ vars g → x ∈ vars f) := by
  induction f with
  | var n => exact ⟨.var n, rfl, rfl, fun v => rfl, fun x hx => hx⟩
  | const n => simp [inBasisNA] at h
  | unary f ih =>
    obtain ⟨g, hg, hb, hs, hv⟩ := ih (by simpa [inBasisNA] using h)
    refine ⟨.binary "-&" g g, by simp [to_nand.convert, hg],
      by simp [inBasisNand, hb], fun v => ?_, fun x hx => ?_⟩
    · simp only [evaluate_nand, evaluate_unary, hs]
      cases evaluate f v <;> rfl
    · simp only [vars, List.mem_append] at hx
      rcases hx with hx | hx <;> exact hv x hx
  | binary r a b iha ihb =>
    simp only [inBasisNA, Bool.and_eq_true, beq_iff_eq] at h
    obtain ⟨⟨rfl, h2⟩, h3⟩ := h
    obtain ⟨a', ha, hba, hsa, hva⟩ := iha h2
    obtain ⟨b', hb, hbb, hsb, hvb⟩ := ihb h3
    refine ⟨.binary "-&" (.binary "-&" a' b') (.binary "-&" a' b'),
      by simp [to_nand.convert, ha, hb], by simp [inBasisNand, hba, hbb],
      fun v => ?_, fun x hx => ?_⟩
    · simp only [evaluate_nand, evaluate_and, hsa, hsb]
      cases evaluate a v <;> cases evaluate b v <;> rfl
    · simp only [vars, List.mem_append] at hx ⊢
      rcases hx with hx | hx <;> exact or_map (hva x) (hvb x) hx

theorem elim_main (f : Formula) (h : inBasisIN f = true) :
    ∃ g, to_implies_false.eliminate f = some g ∧ inBasisIF g = true ∧
      (∀ v, evaluate g v = evaluate f v) ∧
      (∀ x, x ∈ vars g → x ∈ vars f) := by
  induction f with
  | var n => exact ⟨.var n, rfl, rfl, fun v => rfl, fun x hx => hx⟩
  | const n => simp [inBasisIN] at h
  | unary f ih =>
    obtain ⟨g, hg, hb, hs, hv⟩ := ih (by simpa [inBasisIN] using h)
    refine ⟨.binary "->" g (.const "F"), by simp [to_implies_false.eliminate, hg],
      by simp [inBasisIF, hb], fun v => ?_, fun x hx => ?_⟩
    · simp only [evaluate_imp, evaluate_const, evaluate_unary, hs]
      cases evaluate f v <;> rfl
    · simp only [vars, List.append_nil] at hx
      exact hv x hx
  | binary r a b iha ihb =>
    simp only [inBasisIN, Bool.and_eq_true, beq_iff_eq] at h
    obtain ⟨⟨rfl, h2⟩, h3⟩ := h
    obtain ⟨a', ha, hba, hsa, hva⟩ := iha h2
    obtain ⟨b', hb, hbb, hsb, hvb⟩ := ihb h3
    refine ⟨.binary "->" a' b', by simp [to_implies_false.eliminate, ha, hb],
      by simp [inBasisIF, hba, hbb], fun v => by simp [hsa, hsb], fun x hx => ?_⟩
    simp only [vars, List.mem_append] at hx ⊢
    exact or_map (hva x) (hvb x) hx

theorem nand_main (f : Formula) (h : wf f = true) :
    ∃ g, to_nand f = some g ∧ inBasisNand g = true ∧
      (∀ v, evaluate g v = evaluate f v) ∧
      (∀ x, x ∈ vars g → x ∈ vars f ∨ x = "p") ∧
      (hasConst f = false → ∀ x, x ∈ vars g → x ∈ vars f) := by
  obtain ⟨g1, hg1, hb1, hs1, hv1, hvc1⟩ := na_main f h
  obtain ⟨g2, hg2, hb2, hs2, hv2⟩ := conv_main g1 hb1
  exact ⟨g2, by simp [to_nand, hg1, hg2], hb2, fun v => (hs2 v).trans (hs1 v),
    fun x hx => hv1 x (hv2 x hx), fun hc x hx => hvc1 hc x (hv2 x hx)⟩

theorem impf_main (f : Formula) (h : wf f = true) :
    ∃ g, to_implies_false f = some g ∧ inBasisIF g = true ∧
      (∀ v, evaluate g v = evaluate f v) ∧
      (∀ x, x ∈ vars g → x ∈ vars f ∨ x = "p") ∧
      (hasConst f = false → ∀ x, x ∈ vars g → x ∈ vars f) := by
  obtain ⟨g1, hg1, hb1, hs1, hv1, hvc1⟩ := in_main f h
  obtain ⟨g2, hg2, hb2, hs2, hv2⟩ := elim_main g1 hb1
  exact ⟨g2, by simp [to_implies_false, hg1, hg2], hb2, fun v => (hs2 v).trans (hs1 v),
    fun x hx => hv1 x (hv2 x hx), fun hc x hx => hvc1 hc x (hv2 x hx)⟩

theorem nao_id (f : Formula) (h : inBasisNAO f = true) : to_not_and_or f = some f := by
  induction f with
  | var n => rfl
  | const n => simp [inBasisNAO] at h
  | unary f ih =>
    simp only [inBasisNAO] at h
    simp [to_not_and_or, ih h]
  | binary r a b iha ihb =>
    simp only [inBasisNAO, Bool.and_eq_true, Bool.or_eq_true, beq_iff_eq] at h
    obtain ⟨⟨h1, h2⟩, h3⟩ := h
    rcases h1 with rfl | rfl <;> simp [to_not_and_or, iha h2, ihb h3]

theorem na_id (f : Formula) (h : inBasisNA f = true) : to_not_and f = some f := by
  induction f with
  | var n => rfl
  | const n => simp [inBasisNA] at h
  | unary f ih =>
    simp only [inBasisNA] at h
    simp [to_not_and, ih h]
  | binary r a b iha ihb =>
    simp only [inBasisNA, Bool.and_eq_true, beq_iff_eq] at h
    obtain ⟨⟨rfl, h2⟩, h3⟩ := h
    simp [to_not_and, iha h2, ihb h3]

theorem in_id (f : Formula) (h : inBasisIN f = true) : to_implies_not f = some f := by
  induction f with
  | var n => rfl
  | const n => simp [inBasisIN] at h
  | unary f ih =>
    simp only [inBasisIN] at h
    simp [to_implies_not, neg, ih h]
  | binary r a b iha ihb =>
    simp only [inBasisIN, Bool.and_eq_true, beq_iff_eq] at h
    obtain ⟨⟨rfl, h2⟩, h3⟩ := h
    simp [to_implies_not, imp, iha h2, ihb h3]

theorem to_not_and_iff_via_xor (a b : Formula) :
    to_not_and (.binary "<->" a b) = (to_not_and (.binary "+" a b)).map Formula.unary := by
  cases ha : to_not_and a <;> cases hb : to_not_and b <;> simp [to_not_and, ha, hb]

theorem inBasisNAO_basisOnly (f : Formula) (h : inBasisNAO f = true) :
    basisOnly ["~", "&", "|"] f = true := by
  induction f with
  | var n => rfl
  | const n => simp [inBasisNAO] at h
  | unary f ih =>
    simp only [inBasisNAO] at h
    simp only [basisOnly, tags, List.all_cons, Bool.and_eq_true] at ih ⊢
    exact ⟨rfl, ih h⟩
  | binary r a b iha ihb =>
    simp only [inBasisNAO, Bool.and_eq_true, Bool.or_eq_true, beq_iff_eq] at h
    obtain ⟨⟨h1, h2⟩, h3⟩ := h
    simp only [basisOnly, tags, List.all_cons, List.all_append, Bool.and_eq_true] at iha ihb ⊢
    rcases h1 with rfl | rfl <;> exact ⟨rfl, iha h2, ihb h3⟩

theorem inBasisNA_basisOnly (f : Formula) (h : inBasisNA f = true) :
    basisOnly ["~", "&"] f = true := by
  induction f with
  | var n => rfl
  | const n => simp [inBasisNA] at h
  | unary f ih =>
    simp only [inBasisNA] at h
    simp only [basisOnly, tags, List.all_cons, Bool.and_eq_true] at ih ⊢
    exact ⟨rfl, ih h⟩
  | binary r a b iha ihb =>
    simp only [inBasisNA, Bool.and_eq_true, beq_iff_eq] at h
    obtain ⟨⟨rfl, h2⟩, h3⟩ := h
    simp only [basisOnly, tags, List.all_cons, List.all_append, Bool.and_eq_true] at iha ihb ⊢
    exact ⟨rfl, iha h2, ihb h3⟩

theorem inBasisNand_basisOnly (f : Formula) (h : inBasisNand f = true) :
    basisOnly ["-&"] f = true := by
  induction f with
  | var n => rfl
  | const n => simp [inBasisNand] at h
  | unary f ih => simp [inBasisNand] at h
  | binary r a b iha ihb =>
    simp only [inBasisNand, Bool.and_eq_true, beq_iff_eq] at h
    obtain ⟨⟨rfl, h2⟩, h3⟩ := h
    simp only [basisOnly, tags, List.all_cons, List.all_append, Bool.and_eq_true] at iha ihb ⊢
    exact ⟨rfl, iha h2, ihb h3⟩

theorem inBasisIN_basisOnly (f : Formula) (h : inBasisIN f = true) :
    basisOnly ["->", "~"] f = true := by
  induction f with
  | var n => rfl
  | const n => simp [inBasisIN] at h
  | unary f ih =>
    simp only [inBasisIN] at h
    simp only [basisOnly, tags, List.all_cons, Bool.and_eq_true] at ih ⊢
    exact ⟨rfl, ih h⟩
  | binary r a b iha ihb =>
    simp only [inBasisIN, Bool.and_eq_true, beq_iff_eq] at h
    obtain ⟨⟨rfl, h2⟩, h3⟩ := h
    simp only [basisOnly, tags, List.all_cons, List.all_append, Bool.and_eq_true] at iha ihb ⊢
    exact ⟨rfl, iha h2, ihb h3⟩

theorem inBasisIF_basisOnly (f : Formula) (h : inBasisIF f = true) :
    basisOnly ["->", "F"] f = true := by
  induction f with
  | var n => rfl
  | const n =>
    simp only [inBasisIF, beq_iff_eq] at h
    subst h
    rfl
  | unary f ih => simp [inBasisIF] at h
  | binary r a b iha ihb =>
    simp only [inBasisIF, Bool.and_eq_true, beq_iff_eq] at h
    obtain ⟨⟨rfl, h2⟩, h3⟩ := h
    simp only [basisOnly, tags, List.all_cons, List.all_append, Bool.and_eq_true] at iha ihb ⊢
    exact ⟨rfl, iha h2, ihb h3⟩

theorem inBasisNA_no_or (f : Formula) (h : inBasisNA f = true) :
    (tags f).contains "|" = false := by
  induction f with
  | var n => rfl
  | const n => simp [inBasisNA] at h
  | unary f ih =>
    simp only [inBasisNA] at h
    simpa [tags] using ih h
  | binary r a b iha ihb =>
    simp only [inBasisNA, Bool.and_eq_true, beq_iff_eq] at h
    obtain ⟨⟨rfl, h2⟩, h3⟩ := h
    have ha : "|" ∉ tags a := by simpa using iha h2
    have hb : "|" ∉ tags b := by simpa using ihb h3
    simp [tags, ha, hb]

theorem wf_basisOnly_inBasisNAO (f : Formula) (hw : wf f = true)
    (h : basisOnly ["~", "&", "|"] f = true) : inBasisNAO f = true := by
  induction f with
  | var n => rfl
  | const n =>
    simp only [wf, Bool.or_eq_true, beq_iff_eq] at hw
    rcases hw with rfl | rfl <;> simp [basisOnly, tags] at h
  | unary f ih =>
    simp only [wf] at hw
    simp only [basisOnly, tags, List.all_cons, Bool.and_eq_true] at h
    simpa [inBasisNAO] using ih hw h.2
  | binary r a b iha ihb =>
    simp only [wf, Bool.and_eq_true] at hw
    obtain ⟨⟨h1, h2⟩, h3⟩ := hw
    simp only [basisOnly, tags, List.all_cons, List.all_append, Bool.and_eq_true] at h
    obtain ⟨hr, ha, hb⟩ := h
    simp only [inBasisNAO, Bool.and_eq_true, Bool.or_eq_true, beq_iff_eq]
    refine ⟨⟨?_, iha h2 ha⟩, ihb h3 hb⟩
    rcases knownBinary_cases h1 with rfl | rfl | rfl | rfl | rfl | rfl | rfl <;>
      simp_all

theorem wf_basisOnly_inBasisNA (f : Formula) (hw : wf f = true)
    (h : basisOnly ["~", "&"] f = true) : inBasisNA f = true := by
  induction f with
  | var n => rfl
  | const n =>
    simp only [wf, Bool.or_eq_true, beq_iff_eq] at hw
    rcases hw with rfl | rfl <;> simp [basisOnly, tags] at h
  | unary f ih =>
    simp only [wf] at hw
    simp only [basisOnly, tags, List.all_cons, Bool.and_eq_true] at h
    simpa [inBasisNA] using ih hw h.2
  | binary r a b iha ihb =>
    simp only [wf, Bool.and_eq_true] at hw
    obtain ⟨⟨h1, h2⟩, h3⟩ := hw
    simp only [basisOnly, tags, List.all_cons, List.all_append, Bool.and_eq_true] at h
    obtain ⟨hr, ha, hb⟩ := h
    simp only [inBasisNA, Bool.and_eq_true, beq_iff_eq]
    refine ⟨⟨?_, iha h2 ha⟩, ihb h3 hb⟩
    rcases knownBinary_cases h1 with rfl | rfl | rfl | rfl | rfl | rfl | rfl <;>
      simp_all

theorem wf_basisOnly_inBasisIN (f : Formula) (hw : wf f = true)
    (h : basisOnly ["->", "~"] f = true) : inBasisIN f = true := by
  induction f with
  | var n => rfl
  | const n =>
    simp only [wf, Bool.or_eq_true, beq_iff_eq] at hw
    rcases hw with rfl | rfl <;> simp [basisOnly, tags] at h
  | unary f ih =>
    simp only [wf] at hw
    simp only [basisOnly, tags, List.all_cons, Bool.and_eq_true] at h
    simpa [inBasisIN] using ih hw h.2
  | binary r a b iha ihb =>
    simp only [wf, Bool.and_eq_true] at hw
    obtain ⟨⟨h1, h2⟩, h3⟩ := hw
    simp only [basisOnly, tags, List.all_cons, List.all_append, Bool.and_eq_true] at h
    obtain ⟨hr, ha, hb⟩ := h
    simp only [inBasisIN, Bool.and_eq_true, beq_iff_eq]
    refine ⟨⟨?_, iha h2 ha⟩, ihb h3 hb⟩
    rcases knownBinary_cases h1 with rfl | rfl | rfl | rfl | rfl | rfl | rfl <;>
      simp_all

/-- C1: for every well-formed formula `f`, each of the five converters
`to_not_and_or`, `to_not_and`, `to_nand`, `to_implies_not`,
`to_implies_false` succeeds, and under every assignment of truth values
to variable names (covering the variables of `f` and the helper variable
`p`, including assignments for inputs in which `p` already occurs) the
converted formula evaluates to the same truth value as `f`. -/
theorem claim_C1 (f : Formula) (h : wf f = true) (v : String → Bool) :
    (to_not_and_or f).map (fun g => evaluate g v) = some (evaluate f v) ∧
    (to_not_and f).map (fun g => evaluate g v) = some (evaluate f v) ∧
    (to_nand f).map (fun g => evaluate g v) = some (evaluate f v) ∧
    (to_implies_not f).map (fun g => evaluate g v) = some (evaluate f v) ∧
    (to_implies_false f).map (fun g => evaluate g v) = some (evaluate f v) := by
  obtain ⟨g1, e1, _, s1, _, _⟩ := nao_main f h
  obtain ⟨g2, e2, _, s2, _, _⟩ := na_main f h
  obtain ⟨g3, e3, _, s3, _, _⟩ := nand_main f h
  obtain ⟨g4, e4, _, s4, _, _⟩ := in_main f h
  obtain ⟨g5, e5, _, s5, _, _⟩ := impf_main f h
  exact ⟨by simp [e1, s1], by simp [e2, s2], by simp [e3, s3],
    by simp [e4, s4], by simp [e5, s5]⟩

/-- Witness for C1 at the xor formula `x+y` under the all-true assignment. -/
theorem claim_C1_witness :
    (to_not_and_or (.binary "+" (.var "x") (.var "y"))).map
        (fun g => evaluate g (fun _ => true)) =
      some (evaluate (.binary "+" (.var "x") (.var "y")) (fun _ => true)) ∧
    (to_not_and (.binary "+" (.var "x") (.var "y"))).map
        (fun g => evaluate g (fun _ => true)) =
      some (evaluate (.binary "+" (.var "x") (.var "y")) (fun _ => true)) ∧
    (to_nand (.binary "+" (.var "x") (.var "y"))).map
        (fun g => evaluate g (fun _ => true)) =
      some (evaluate (.binary "+" (.var "x") (.var "y")) (fun _ => true)) ∧
    (to_implies_not (.binary "+" (.var "x") (.var "y"))).map
        (fun g => evaluate g (fun _ => true)) =
      some (evaluate (.binary "+" (.var "x") (.var "y")) (fun _ => true)) ∧
    (to_implies_false (.binary "+" (.var "x") (.var "y"))).map
        (fun g => evaluate g (fun _ => true)) =
      some (evaluate (.binary "+" (.var "x") (.var "y")) (fun _ => true)) :=
  claim_C1 (.binary "+" (.var "x") (.var "y")) (by decide) (fun _ => true)

/-- C2: for every well-formed formula, each converter's output exists and
its operator/constant tags all lie in the converter's declared target
basis: `{~, &, |}` (no constants) for `to_not_and_or`, `{~, &}` for
`to_not_and`, `{-&}` for `to_nand`, `{->, ~}` for `to_implies_not`, and
`{->, F}` for `to_implies_false`. -/
theorem claim_C2 (f : Formula) (h : wf f = true) :
    ∃ g1 g2 g3 g4 g5,
      to_not_and_or f = some g1 ∧ basisOnly ["~", "&", "|"] g1 = true ∧
      to_not_and f = some g2 ∧ basisOnly ["~", "&"] g2 = true ∧
      to_nand f = some g3 ∧ basisOnly ["-&"] g3 = true ∧
      to_implies_not f = some g4 ∧ basisOnly ["->", "~"] g4 = true ∧
      to_implies_false f = some g5 ∧ basisOnly ["->", "F"] g5 = true := by
  obtain ⟨g1, e1, b1, _, _, _⟩ := nao_main f h
  obtain ⟨g2, e2, b2, _, _, _⟩ := na_main f h
  obtain ⟨g3, e3, b3, _, _, _⟩ := nand_main f h
  obtain ⟨g4, e4, b4, _, _, _⟩ := in_main f h
  obtain ⟨g5, e5, b5, _, _, _⟩ := impf_main f h
  exact ⟨g1, g2, g3, g4, g5, e1, inBasisNAO_basisOnly _ b1,
    e2, inBasisNA_basisOnly _ b2, e3, inBasisNand_basisOnly _ b3,
    e4, inBasisIN_basisOnly _ b4, e5, inBasisIF_basisOnly _ b5⟩

/-- Witness for C2 at the formula `~(x<->y)`. -/
theorem claim_C2_witness :
    ∃ g1 g2 g3 g4 g5,
      to_not_and_or (.unary (.binary "<->" (.var "x") (.var "y"))) = some g1 ∧
        basisOnly ["~", "&", "|"] g1 = true ∧
      to_not_and (.unary (.binary "<->" (.var "x") (.var "y"))) = some g2 ∧
        basisOnly ["~", "&"] g2 = true ∧
      to_nand (.unary (.binary "<->" (.var "x") (.var "y"))) = some g3 ∧
        basisOnly ["-&"] g3 = true ∧
      to_implies_not (.unary (.binary "<->" (.var "x") (.var "y"))) = some g4 ∧
        basisOnly ["->", "~"] g4 = true ∧
      to_implies_false (.unary (.binary "<->" (.var "x") (.var "y"))) = some g5 ∧
        basisOnly ["->", "F"] g5 = true :=
  claim_C2 (.unary (.binary "<->" (.var "x") (.var "y"))) (by decide)

/-- C7: on every formula whose node tags all come from the declared
grammar (well-formed per `wf`), none of the five converters reaches its
`Unknown operator` error branch (modelled as `none`): each returns a
result. -/
theorem claim_C7 (f : Formula) (h : wf f = true) :
    (to_not_and_or f).isSome = true ∧ (to_not_and f).isSome = true ∧
    (to_nand f).isSome = true ∧ (to_implies_not f).isSome = true ∧
    (to_implies_false f).isSome = true := by
  obtain ⟨g1, e1, -, -, -, -⟩ := nao_main f h
  obtain ⟨g2, e2, -, -, -, -⟩ := na_main f h
  obtain ⟨g3, e3, -, -, -, -⟩ := nand_main f h
  obtain ⟨g4, e4, -, -, -, -⟩ := in_main f h
  obtain ⟨g5, e5, -, -, -, -⟩ := impf_main f h
  simp [e1, e2, e3, e4, e5]

/-- Witness for C7 at the formula `(T -| (x -& F))`. -/
theorem claim_C7_witness :
    (to_not_and_or (.binary "-|" (.const "T") (.binary "-&" (.var "x") (.const "F")))).isSome = true ∧
    (to_not_and (.binary "-|" (.const "T") (.binary "-&" (.var "x") (.const "F")))).isSome = true ∧
    (to_nand (.binary "-|" (.const "T") (.binary "-&" (.var "x") (.const "F")))).isSome = true ∧
    (to_implies_not (.binary "-|" (.const "T") (.binary "-&" (.var "x") (.const "F")))).isSome = true ∧
    (to_implies_false (.binary "-|" (.const "T") (.binary "-&" (.var "x") (.const "F")))).isSome = true :=
  claim_C7 (.binary "-|" (.const "T") (.binary "-&" (.var "x") (.const "F"))) (by decide)

/-- C3: `to_not_and_or` satisfies exactly the recursive defining
equations of spec §4.1: variables unchanged; `T` becomes `p|~p` and `F`
becomes `p&~p`; `~X` becomes `~convert(X)`; with converted operands,
`&` and `|` are rebuilt unchanged, `a->b` becomes `~a'|b'`, `a+b`
becomes `(a'&~b')|(~a'&b')`, `a<->b` becomes `(a'&b')|(~a'&~b')`,
`a-&b` becomes `~(a'&b')`, and `a-|b` becomes `~(a'|b')`. -/
theorem claim_C3 :
    (∀ n, to_not_and_or (.var n) = some (.var n)) ∧
    to_not_and_or (.const "T") = some (.binary "|" (.var "p") (.unary (.var "p"))) ∧
    to_not_and_or (.const "F") = some (.binary "&" (.var "p") (.unary (.var "p"))) ∧
    (∀ a a', to_not_and_or a = some a' →
      to_not_and_or (.unary a) = some (.unary a')) ∧
    (∀ a b a' b', to_not_and_or a = some a' → to_not_and_or b = some b' →
      to_not_and_or (.binary "&" a b) = some (.binary "&" a' b') ∧
      to_not_and_or (.binary "|" a b) = some (.binary "|" a' b') ∧
      to_not_and_or (.binary "->" a b) = some (.binary "|" (.unary a') b') ∧
      to_not_and_or (.binary "+" a b) =
        some (.binary "|" (.binary "&" a' (.unary b'))
                          (.binary "&" (.unary a') b')) ∧
      to_not_and_or (.binary "<->" a b) =
        some (.binary "|" (.binary "&" a' b')
                          (.binary "&" (.unary a') (.unary b'))) ∧
      to_not_and_or (.binary "-&" a b) = some (.unary (.binary "&" a' b')) ∧
      to_not_and_or (.binary "-|" a b) = some (.unary (.binary "|" a' b'))) := by
  refine ⟨fun n => rfl, rfl, rfl, fun a a' ha => by simp [to_not_and_or, ha],
    fun a b a' b' ha hb => ?_⟩
  refine ⟨?_, ?_, ?_, ?_, ?_, ?_, ?_⟩ <;> simp [to_not_and_or, ha, hb]

/-- Witness for C3: the implication equation at `x->y`. -/
theorem claim_C3_witness :
    to_not_and_or (.binary "->" (.var "x") (.var "y")) =
      some (.binary "|" (.unary (.var "x")) (.var "y")) :=
  (claim_C3.2.2.2.2 (.var "x") (.var "y") (.var "x") (.var "y") rfl rfl).2.2.1

/-- C4: `to_implies_not` satisfies exactly the recursive defining
equations of spec §4.4: variables unchanged; `T` becomes `p->p` and `F`
becomes `~(p->p)`; `~X` becomes `~convert(X)`; with converted operands,
`->` is kept structurally, `a|b` becomes `~a'->b'`, `a&b` becomes
`~(a'->~b')`, `a+b` becomes `(a'->b')->~(b'->a')`, `a<->b` is the
negation of that xor encoding, `a-&b` becomes `a'->~b'`, and `a-|b`
becomes `~(~a'->b')`. -/
theorem claim_C4 :
    (∀ n, to_implies_not (.var n) = some (.var n)) ∧
    to_implies_not (.const "T") = some (.binary "->" (.var "p") (.var "p")) ∧
    to_implies_not (.const "F") = some (.unary (.binary "->" (.var "p") (.var "p"))) ∧
    (∀ a a', to_implies_not a = some a' →
      to_implies_not (.unary a) = some (.unary a')) ∧
    (∀ a b a' b', to_implies_not a = some a' → to_implies_not b = some b' →
      to_implies_not (.binary "->" a b) = some (.binary "->" a' b') ∧
      to_implies_not (.binary "|" a b) = some (.binary "->" (.unary a') b') ∧
      to_implies_not (.binary "&" a b) =
        some (.unary (.binary "->" a' (.unary b'))) ∧
      to_implies_not (.binary "+" a b) =
        some (.binary "->" (.binary "->" a' b')
                           (.unary (.binary "->" b' a'))) ∧
      to_implies_not (.binary "<->" a b) =
        some (.unary (.binary "->" (.binary "->" a' b')
                                   (.unary (.binary "->" b' a')))) ∧
      to_implies_not (.binary "-&" a b) = some (.binary "->" a' (.unary b')) ∧
      to_implies_not (.binary "-|" a b) =
        some (.unary (.binary "->" (.unary a') b'))) := by
  refine ⟨fun n => rfl, rfl, rfl,
    fun a a' ha => by simp [to_implies_not, neg, ha],
    fun a b a' b' ha hb => ?_⟩
  refine ⟨?_, ?_, ?_, ?_, ?_, ?_, ?_⟩ <;> simp [to_implies_not, imp, neg, ha, hb]

/-- Witness for C4: the conjunction equation at `x&y`. -/
theorem claim_C4_witness :
    to_implies_not (.binary "&" (.var "x") (.var "y")) =
      some (.unary (.binary "->" (.var "x") (.unary (.var "y")))) :=
  (claim_C4.2.2.2.2 (.var "x") (.var "y") (.var "x") (.var "y") rfl rfl).2.2.1

/-- C5: `to_not_and` follows the spec §4.2 strategy exactly: `F` becomes
`p&~p` and `T` becomes `~(p&~p)`; with converted operands, `a|b` becomes
`~(~a'&~b')` by De Morgan, `a->b` becomes `~(a'&~b')` and `a+b` becomes
`~(~(a'&~b')&~(~a'&b'))`, both directly over `~` and `&`; `a-&b` is kept
as `~(a'&b')`; `a-|b` becomes `~a'&~b'`; `a<->b` is computed by
converting the xor formula built from the original operands and negating
the result; and no `|` node ever appears in the output. -/
theorem claim_C5 :
    to_not_and (.const "F") = some (.binary "&" (.var "p") (.unary (.var "p"))) ∧
    to_not_and (.const "T") =
      some (.unary (.binary "&" (.var "p") (.unary (.var "p")))) ∧
    (∀ a b a' b', to_not_and a = some a' → to_not_and b = some b' →
      to_not_and (.binary "|" a b) =
        some (.unary (.binary "&" (.unary a') (.unary b'))) ∧
      to_not_and (.binary "->" a b) =
        some (.unary (.binary "&" a' (.unary b'))) ∧
      to_not_and (.binary "+" a b) =
        some (.unary (.binary "&"
          (.unary (.binary "&" a' (.unary b')))
          (.unary (.binary "&" (.unary a') b')))) ∧
      to_not_and (.binary "-&" a b) = some (.unary (.binary "&" a' b')) ∧
      to_not_and (.binary "-|" a b) =
        some (.binary "&" (.unary a') (.unary b'))) ∧
    (∀ a b, to_not_and (.binary "<->" a b) =
      (to_not_and (.binary "+" a b)).map Formula.unary) ∧
    (∀ f g, wf f = true → to_not_and f = some g →
      (tags g).contains "|" = false) := by
  refine ⟨rfl, rfl, fun a b a' b' ha hb => ?_, to_not_and_iff_via_xor,
    fun f g hw e => ?_⟩
  · refine ⟨?_, ?_, ?_, ?_, ?_⟩ <;> simp [to_not_and, ha, hb]
  · obtain ⟨g', e', hb', -, -, -⟩ := na_main f hw
    rw [e'] at e
    injection e with e
    subst e
    exact inBasisNA_no_or _ hb'

/-- Witness for C5: the De Morgan equation at `x|y`. -/
theorem claim_C5_witness :
    to_not_and (.binary "|" (.var "x") (.var "y")) =
      some (.unary (.binary "&" (.unary (.var "x")) (.unary (.var "y")))) :=
  (claim_C5.2.2.1 (.var "x") (.var "y") (.var "x") (.var "y") rfl rfl).1

/-- C6: chained-converter consistency: for every well-formed formula `f`,
`to_nand (to_not_and f)` is a formula whose only tags are `-&` and is
equivalent to `f` under every assignment (covering the variables of `f`
and `p`); likewise `to_implies_false (to_implies_not f)` contains only
`->` and the constant `F` besides variables, and is equivalent to `f`. -/
theorem claim_C6 (f : Formula) (hw : wf f = true) :
    (∃ g k, to_not_and f = some g ∧ to_nand g = some k ∧
      basisOnly ["-&"] k = true ∧ ∀ v, evaluate k v = evaluate f v) ∧
    (∃ g k, to_implies_not f = some g ∧ to_implies_false g = some k ∧
      basisOnly ["->", "F"] k = true ∧ ∀ v, evaluate k v = evaluate f v) := by
  constructor
  · obtain ⟨g, e, hb, hs, -, -⟩ := na_main f hw
    obtain ⟨k, e2, hb2, hs2, -⟩ := conv_main g hb
    exact ⟨g, k, e, by simp [to_nand, na_id g hb, e2],
      inBasisNand_basisOnly _ hb2, fun v => (hs2 v).trans (hs v)⟩
  · obtain ⟨g, e, hb, hs, -, -⟩ := in_main f hw
    obtain ⟨k, e2, hb2, hs2, -⟩ := elim_main g hb
    exact ⟨g, k, e, by simp [to_implies_false, in_id g hb, e2],
      inBasisIF_basisOnly _ hb2, fun v => (hs2 v).trans (hs v)⟩

/-- Witness for C6 at the formula `x<->T`. -/
theorem claim_C6_witness :
    (∃ g k, to_not_and (.binary "<->" (.var "x") (.const "T")) = some g ∧
      to_nand g = some k ∧ basisOnly ["-&"] k = true ∧
      ∀ v, evaluate k v = evaluate (.binary "<->" (.var "x") (.const "T")) v) ∧
    (∃ g k, to_implies_not (.binary "<->" (.var "x") (.const "T")) = some g ∧
      to_implies_false g = some k ∧ basisOnly ["->", "F"] k = true ∧
      ∀ v, evaluate k v = evaluate (.binary "<->" (.var "x") (.const "T")) v) :=
  claim_C6 (.binary "<->" (.var "x") (.const "T")) (by decide)

/-- C8: for each of the five converters, if a well-formed formula already
uses only operator tags from the converter's target basis and contains no
constants, the conversion succeeds and is semantically equivalent to the
input under every assignment; and on a formula consisting of a single
variable, every one of the five converters (including `to_implies_false`,
despite `F` being in its basis) returns exactly that variable. -/
theorem claim_C8 (f : Formula) :
    (wf f = true → basisOnly ["~", "&", "|"] f = true → hasConst f = false →
      ∀ v, (to_not_and_or f).map (fun g => evaluate g v) = some (evaluate f v)) ∧
    (wf f = true → basisOnly ["~", "&"] f = true → hasConst f = false →
      ∀ v, (to_not_and f).map (fun g => evaluate g v) = some (evaluate f v)) ∧
    (wf f = true → basisOnly ["-&"] f = true → hasConst f = false →
      ∀ v, (to_nand f).map (fun g => evaluate g v) = some (evaluate f v)) ∧
    (wf f = true → basisOnly ["->", "~"] f = true → hasConst f = false →
      ∀ v, (to_implies_not f).map (fun g => evaluate g v) = some (evaluate f v)) ∧
    (wf f = true → basisOnly ["->", "F"] f = true → hasConst f = false →
      ∀ v, (to_implies_false f).map (fun g => evaluate g v) = some (evaluate f v)) ∧
    (∀ n, to_not_and_or (.var n) = some (.var n) ∧
      to_not_and (.var n) = some (.var n) ∧
      to_nand (.var n) = some (.var n) ∧
      to_implies_not (.var n) = some (.var n) ∧
      to_implies_false (.var n) = some (.var n)) := by
  refine ⟨fun hw _ _ v => ?_, fun hw _ _ v => ?_, fun hw _ _ v => ?_,
    fun hw _ _ v => ?_, fun hw _ _ v => ?_,
    fun n => ⟨rfl, rfl, rfl, rfl, rfl⟩⟩
  · obtain ⟨g, e, -, hs, -, -⟩ := nao_main f hw
    simp [e, hs]
  · obtain ⟨g, e, -, hs, -, -⟩ := na_main f hw
    simp [e, hs]
  · obtain ⟨g, e, -, hs, -, -⟩ := nand_main f hw
    simp [e, hs]
  · obtain ⟨g, e, -, hs, -, -⟩ := in_main f hw
    simp [e, hs]
  · obtain ⟨g, e, -, hs, -, -⟩ := impf_main f hw
    simp [e, hs]

/-- Witness for C8: `to_not_and` on the already-legal formula `x&y` under
the all-false assignment. -/
theorem claim_C8_witness :
    (to_not_and (.binary "&" (.var "x") (.var "y"))).map
        (fun g => evaluate g (fun _ => false)) =
      some (evaluate (.binary "&" (.var "x") (.var "y")) (fun _ => false)) :=
  (claim_C8 (.binary "&" (.var "x") (.var "y"))).2.1 (by decide) (by decide)
    (by decide) (fun _ => false)

/-- C9: `to_not_and_or`, `to_not_and` and `to_implies_not` are the
structural identity on well-formed constant-free formulas whose tags lie
in their own target basis; consequently each of the three is idempotent
on every well-formed input: converting a converter's output again
returns it unchanged. -/
theorem claim_C9 :
    (∀ f, wf f = true → basisOnly ["~", "&", "|"] f = true →
      hasConst f = false → to_not_and_or f = some f) ∧
    (∀ f, wf f = true → basisOnly ["~", "&"] f = true →
      hasConst f = false → to_not_and f = some f) ∧
    (∀ f, wf f = true → basisOnly ["->", "~"] f = true →
      hasConst f = false → to_implies_not f = some f) ∧
    (∀ g, wf g = true → (to_not_and_or g).bind to_not_and_or = to_not_and_or g) ∧
    (∀ g, wf g = true → (to_not_and g).bind to_not_and = to_not_and g) ∧
    (∀ g, wf g = true → (to_implies_not g).bind to_implies_not = to_implies_not g) := by
  refine ⟨fun f hw hb _ => nao_id f (wf_basisOnly_inBasisNAO f hw hb),
    fun f hw hb _ => na_id f (wf_basisOnly_inBasisNA f hw hb),
    fun f hw hb _ => in_id f (wf_basisOnly_inBasisIN f hw hb),
    fun g hw => ?_, fun g hw => ?_, fun g hw => ?_⟩
  · obtain ⟨k, e, hb, -, -, -⟩ := nao_main g hw
    simp [e, nao_id k hb]
  · obtain ⟨k, e, hb, -, -, -⟩ := na_main g hw
    simp [e, na_id k hb]
  · obtain ⟨k, e, hb, -, -, -⟩ := in_main g hw
    simp [e, in_id k hb]

/-- Witness for C9: `to_not_and_or` is the structural identity on the
basis-legal formula `~x&(y|z)`. -/
theorem claim_C9_witness :
    to_not_and_or (.binary "&" (.unary (.var "x")) (.binary "|" (.var "y") (.var "z"))) =
      some (.binary "&" (.unary (.var "x")) (.binary "|" (.var "y") (.var "z"))) :=
  claim_C9.1 (.binary "&" (.unary (.var "x")) (.binary "|" (.var "y") (.var "z")))
    (by decide) (by decide) (by decide)

/-- C10: for every well-formed formula `f` and each of the five
converters, every variable of the output occurs in `f` or is the helper
variable `p`; and when `f` contains no constants, the output's variables
all occur in `f`. -/
theorem claim_C10 (f g : Formula) (hw : wf f = true)
    (hc : to_not_and_or f = some g ∨ to_not_and f = some g ∨
      to_nand f = some g ∨ to_implies_not f = some g ∨
      to_implies_false f = some g) :
    (∀ x, x ∈ vars g → x ∈ vars f ∨ x = "p") ∧
    (hasConst f = false → ∀ x, x ∈ vars g → x ∈ vars f) := by
  rcases hc with e | e | e | e | e
  · obtain ⟨g', e', -, -, hv, hvc⟩ := nao_main f hw
    rw [e'] at e; injection e with e; subst e
    exact ⟨hv, hvc⟩
  · obtain ⟨g', e', -, -, hv, hvc⟩ := na_main f hw
    rw [e'] at e; injection e with e; subst e
    exact ⟨hv, hvc⟩
  · obtain ⟨g', e', -, -, hv, hvc⟩ := nand_main f hw
    rw [e'] at e; injection e with e; subst e
    exact ⟨hv, hvc⟩
  · obtain ⟨g', e', -, -, hv, hvc⟩ := in_main f hw
    rw [e'] at e; injection e with e; subst e
    exact ⟨hv, hvc⟩
  · obtain ⟨g', e', -, -, hv, hvc⟩ := impf_main f hw
    rw [e'] at e; injection e with e; subst e
    exact ⟨hv, hvc⟩

/-- Witness for C10: `to_not_and_or` on the constant-free formula `x&y`. -/
theorem claim_C10_witness :
    (∀ x, x ∈ vars (Formula.binary "&" (.var "x") (.var "y")) →
      x ∈ vars (Formula.binary "&" (.var "x") (.var "y")) ∨ x = "p") ∧
    (hasConst (Formula.binary "&" (.var "x") (.var "y")) = false →
      ∀ x, x ∈ vars (Formula.binary "&" (.var "x") (.var "y")) →
        x ∈ vars (Formula.binary "&" (.var "x") (.var "y"))) :=
  claim_C10 (.binary "&" (.var "x") (.var "y"))
    (.binary "&" (.var "x") (.var "y")) (by decide) (.inl (by decide))
